import Mathlib

/-!
Shallow embedding of the biski64 pseudo-random number generator
(src/src/lib.rs) and proofs of its specified properties.

All 64-bit machine words are represented as natural numbers; every
operation that wraps in the source carries an explicit `% 2 ^ 64`.
-/

set_option maxRecDepth 8192

namespace Biski64

/-- The modulus of all wrapping 64-bit arithmetic, 2 ^ 64. -/
def U64 : Nat := 2 ^ 64

/-- The modulus of the 128-bit intermediate arithmetic, 2 ^ 128. -/
def U128 : Nat := 2 ^ 128

/-- The odd increment added to `fast_loop` on every `next_u64` step. -/
def FAST_INC : Nat := 0x9999999999999999

/-- The SplitMix64 additive constant 0x9e3779b97f4a7c15. -/
def GOLDEN : Nat := 0x9e3779b97f4a7c15

/-- One step of the `SplitMix64` seeder (`SplitMix64::next`): add the golden
constant to the accumulator (wrapping), then apply the two
xorshift-multiply rounds and the final xorshift.  Returns the new
accumulator state paired with the output word. -/
def SplitMix64.next (state : Nat) : Nat × Nat :=
  let state2 := (state + GOLDEN) % U64
  let z1 := state2
  let z2 := ((z1 ^^^ (z1 >>> 30)) * 0xbf58476d1ce4e5b9) % U64
  let z3 := ((z2 ^^^ (z2 >>> 27)) * 0x94d049bb133111eb) % U64
  (state2, z3 ^^^ (z3 >>> 31))

/-- 64-bit rotate left by `r` bits, as Rust `u64::rotate_left` on a value
below 2 ^ 64. -/
def rotl64 (x r : Nat) : Nat := ((x <<< r) ||| (x >>> (64 - r))) % U64

/-- The generator state: the three u64 words of `struct Biski64Rng`. -/
structure Biski64Rng where
  fast_loop : Nat
  mix : Nat
  loop_mix : Nat
deriving DecidableEq

/-- One call of `Biski64Rng::next_u64`: returns the updated state and the
output word. -/
def next_u64 (s : Biski64Rng) : Biski64Rng × Nat :=
  let output := (s.mix + s.loop_mix) % U64
  (⟨(s.fast_loop + FAST_INC) % U64,
    (rotl64 s.mix 16 + rotl64 s.loop_mix 40) % U64,
    s.fast_loop ^^^ s.mix⟩,
   output)

/-- One call of `Biski64Rng::next_u32`: one full `next_u64` step, keeping the
high 32 bits of the output. -/
def next_u32 (s : Biski64Rng) : Biski64Rng × Nat :=
  let p := next_u64 s
  (p.1, p.2 >>> 32)

/-- The state after `n` consecutive `next_u64` calls. -/
def stepN (n : Nat) (s : Biski64Rng) : Biski64Rng :=
  Nat.rec s (fun _ ih => (next_u64 ih).1) n

/-- The outputs of `n` consecutive `next_u64` calls, in order. -/
def outSeq (s : Biski64Rng) (n : Nat) : List Nat :=
  (Nat.rec (fun _ => ([] : List Nat))
    (fun _ ih s2 => (next_u64 s2).2 :: ih (next_u64 s2).1) n :
      Biski64Rng → List Nat) s

/-- One iteration of the seeding loop: draw three words from the seeder.
Returns the triple `(s0, s1, s2)` and the seeder state afterwards. -/
def drawTriple (st : Nat) : (Nat × Nat × Nat) × Nat :=
  let p0 := SplitMix64.next st
  let p1 := SplitMix64.next p0.1
  let p2 := SplitMix64.next p1.1
  ((p0.2, p1.2, p2.2), p2.1)

/-- The seeding `while` loop, with explicit fuel.  The seeder state advances
by the same amount each iteration and has period 2 ^ 64, so the Rust loop
either stops within 2 ^ 64 iterations or repeats its iterates forever;
fuel 2 ^ 64 therefore reproduces it on every input on which it stops. -/
def seedLoop : Nat → Nat → (Nat × Nat × Nat) × Nat
  | 0, st => drawTriple st
  | fuel + 1, st =>
    let d := drawTriple st
    if d.1.1 = 0 ∧ d.1.2.1 = 0 ∧ d.1.2.2 = 0 then seedLoop fuel d.2 else d

/-- The triple `(s0, s1, s2)` drawn by the seeding loop of `from_seed` and
`from_seed_for_stream`, with the seeder state afterwards. -/
def seedTriple (st : Nat) : (Nat × Nat × Nat) × Nat := seedLoop U64 st

/-- The common tail of seeding from a u64: draw the triple and apply the
16-iteration warm-up. -/
def fromSeedCore (seed64 : Nat) : Biski64Rng :=
  let t := (seedTriple seed64).1
  stepN 16 ⟨t.1, t.2.1, t.2.2⟩

/-- Little-endian interpretation of a byte list (`u64::from_le_bytes`). -/
def u64FromLeBytes (bs : List Nat) : Nat :=
  bs.foldr (fun b acc => b + 256 * acc) 0

/-- `SeedableRng::from_seed` for `Biski64Rng`: the little-endian value of the
first 8 bytes of the 32-byte seed feeds the SplitMix64 seeder; then the
zero-rejecting draw and the 16-iteration warm-up. -/
def from_seed (seed : List Nat) : Biski64Rng :=
  fromSeedCore (u64FromLeBytes (seed.take 8))

/-- 32-bit rotate right by `r < 32` bits, as Rust `u32::rotate_right`. -/
def rotr32 (x r : Nat) : Nat := ((x >>> r) ||| (x <<< (32 - r))) % 2 ^ 32

/-- Modelled from the spec: `seed_from_u64` is the default method of the
`rand_core::SeedableRng` dependency trait and its body is not part of this
repository.  This is that default implementation (one PCG32 step per
4-byte chunk of the 32-byte seed): the repository requires exactly that
its golden regression vector be reproduced, which this definition does. -/
def pcg32step (state : Nat) : Nat × Nat :=
  let st := (state * 6364136223846793005 + 11634580027462260723) % U64
  let xorshifted := (((st >>> 18) ^^^ st) >>> 27) % 2 ^ 32
  let rot := st >>> 59
  (st, rotr32 xorshifted rot)

/-- Little-endian bytes of a u32. -/
def le4 (x : Nat) : List Nat :=
  [x % 256, (x >>> 8) % 256, (x >>> 16) % 256, (x >>> 24) % 256]

/-- Little-endian bytes of a u64. -/
def le8 (x : Nat) : List Nat :=
  [x % 256, (x >>> 8) % 256, (x >>> 16) % 256, (x >>> 24) % 256,
   (x >>> 32) % 256, (x >>> 40) % 256, (x >>> 48) % 256, (x >>> 56) % 256]

/-- Modelled from the spec: `SeedableRng::seed_from_u64`, the rand_core
default, fills the 32-byte seed with eight PCG32 outputs and calls
`from_seed`. -/
def seed_from_u64 (seed : Nat) : Biski64Rng :=
  let p0 := pcg32step (seed % U64)
  let p1 := pcg32step p0.1
  let p2 := pcg32step p1.1
  let p3 := pcg32step p2.1
  let p4 := pcg32step p3.1
  let p5 := pcg32step p4.1
  let p6 := pcg32step p5.1
  let p7 := pcg32step p6.1
  from_seed (le4 p0.2 ++ le4 p1.2 ++ le4 p2.2 ++ le4 p3.2 ++
             le4 p4.2 ++ le4 p5.2 ++ le4 p6.2 ++ le4 p7.2)

/-- The two construction-time failure kinds of `from_seed_for_stream`. -/
inductive StreamError where
  | invalidStreamCount
  | invalidStreamIndex
deriving DecidableEq

/-- The state `from_seed_for_stream` builds before the warm-up (assuming the
argument asserts passed): the drawn triple, with the stream offset added
(wrapping) to the fast-loop word when `total_streams > 1`, computed through
128-bit intermediates exactly as in the source. -/
def streamPreState (seed stream_index total_streams : Nat) : Biski64Rng :=
  let t := (seedTriple seed).1
  let base_fast_loop := t.1
  let final_fast_loop :=
    if 1 < total_streams then
      let cycles_per_stream := (U64 - 1) / total_streams
      let offset := (stream_index * cycles_per_stream % U128) * FAST_INC % U128
      (base_fast_loop + offset % U64) % U64
    else base_fast_loop
  ⟨final_fast_loop, t.2.1, t.2.2⟩

/-- `Biski64Rng::from_seed_for_stream`, with the two `assert!` panics made
explicit as `Except.error` values in source order. -/
def from_seed_for_stream (seed stream_index total_streams : Nat) :
    Except StreamError Biski64Rng :=
  if total_streams < 1 then .error .invalidStreamCount
  else if total_streams ≤ stream_index then .error .invalidStreamIndex
  else .ok (stepN 16 (streamPreState seed stream_index total_streams))

/-- Modelled from the spec: `fill_bytes` delegates to
`rand_core::impls::fill_bytes_via_next`, whose body is not part of this
repository; per the spec it repeatedly calls `next_u64` and writes
successive little-endian 8-byte chunks, truncating the final chunk when the
buffer length is not a multiple of 8.  Fuel is the number of chunks. -/
def fillBytesAux (c : Nat) (s : Biski64Rng) (n : Nat) :
    List Nat × Biski64Rng :=
  (Nat.rec (fun s2 _ => (([] : List Nat), s2))
    (fun _ ih s2 n2 =>
      if n2 ≤ 8 then ((le8 (next_u64 s2).2).take n2, (next_u64 s2).1)
      else (le8 (next_u64 s2).2 ++ (ih (next_u64 s2).1 (n2 - 8)).1,
            (ih (next_u64 s2).1 (n2 - 8)).2)) c :
    Biski64Rng → Nat → List Nat × Biski64Rng) s n

/-- Modelled from the spec: `fill_bytes` over an `n`-byte buffer.  Returns
the bytes written and the state afterwards. -/
def fill_bytes (s : Biski64Rng) (n : Nat) : List Nat × Biski64Rng :=
  fillBytesAux ((n + 7) / 8) s n

/-! ## Helper lemmas -/

theorem U64_pos : 0 < U64 := by decide

theorem shiftRight_self_le (z k : Nat) : z >>> k ≤ z := by
  rw [Nat.shiftRight_eq_div_pow]
  exact Nat.div_le_self z (2 ^ k)

theorem xorshift_lt {z : Nat} (k : Nat) (h : z < U64) : z ^^^ z >>> k < U64 :=
  Nat.xor_lt_two_pow h (Nat.lt_of_le_of_lt (shiftRight_self_le z k) h)

theorem splitMix_state_lt (st : Nat) : (SplitMix64.next st).1 < U64 :=
  Nat.mod_lt _ U64_pos

theorem splitMix_out_lt (st : Nat) : (SplitMix64.next st).2 < U64 := by
  unfold SplitMix64.next
  exact xorshift_lt 31 (Nat.mod_lt _ U64_pos)

theorem drawTriple_lt (st : Nat) :
    (drawTriple st).1.1 < U64 ∧ (drawTriple st).1.2.1 < U64 ∧
      (drawTriple st).1.2.2 < U64 := by
  refine ⟨?_, ?_, ?_⟩
  · show (SplitMix64.next st).2 < U64
    exact splitMix_out_lt _
  · show (SplitMix64.next (SplitMix64.next st).1).2 < U64
    exact splitMix_out_lt _
  · show (SplitMix64.next (SplitMix64.next (SplitMix64.next st).1).1).2 < U64
    exact splitMix_out_lt _

theorem seedLoop_eq_drawTriple (fuel st : Nat) :
    ∃ st2, seedLoop fuel st = drawTriple st2 := by
  induction fuel generalizing st with
  | zero => exact ⟨st, rfl⟩
  | succ fuel ih =>
    simp only [seedLoop]
    split
    · exact ih _
    · exact ⟨st, rfl⟩

theorem seedTriple_lt (st : Nat) :
    (seedTriple st).1.1 < U64 ∧ (seedTriple st).1.2.1 < U64 ∧
      (seedTriple st).1.2.2 < U64 := by
  obtain ⟨st2, h⟩ := seedLoop_eq_drawTriple U64 st
  have h2 : seedTriple st = drawTriple st2 := h
  rw [h2]
  exact drawTriple_lt st2

/-! ## The claims -/

/-- C2: the generator constructed by `seed_from_u64 12345` produces exactly
the outputs 11653916018131561298, 8879211503557437945 and
8034477089638237744 on its first three `next_u64` calls. -/
theorem golden_sequence_from_seed_12345 :
    outSeq (seed_from_u64 12345) 3 =
      [11653916018131561298, 8879211503557437945, 8034477089638237744] := by
  decide

/-- C6: `next_u32` returns exactly the high 32 bits of the `next_u64` output
from the same state, and its post-call state is the post-call state of that
one full `next_u64` step (no half-word is cached). -/
theorem next_u32_is_high_bits (s : Biski64Rng) :
    (next_u32 s).2 = (next_u64 s).2 >>> 32 ∧ (next_u32 s).1 = (next_u64 s).1 :=
  ⟨rfl, rfl⟩

/-- C8: one seed-expander step adds 0x9e3779b97f4a7c15 to the accumulator
modulo 2 ^ 64 and returns the two xorshift-multiply rounds (shifts 30 and
27, constants 0xbf58476d1ce4e5b9 and 0x94d049bb133111eb) followed by a
final xorshift by 31 applied to the new accumulator; a pure function of the
prior accumulator. -/
theorem splitmix64_step_eq (st : Nat) :
    SplitMix64.next st =
      ((st + 0x9e3779b97f4a7c15) % 2 ^ 64,
        let z := (st + 0x9e3779b97f4a7c15) % 2 ^ 64
        let a := ((z ^^^ (z >>> 30)) * 0xbf58476d1ce4e5b9) % 2 ^ 64
        let b := ((a ^^^ (a >>> 27)) * 0x94d049bb133111eb) % 2 ^ 64
        b ^^^ (b >>> 31)) :=
  rfl

theorem shiftRight32_lt {x : Nat} (h : x < U64) : x >>> 32 < 2 ^ 32 := by
  rw [Nat.shiftRight_eq_div_pow]
  refine (Nat.div_lt_iff_lt_mul (by norm_num)).2 ?_
  have h2 : U64 = 2 ^ 32 * (2 : Nat) ^ 32 := by norm_num [U64]
  omega

/-- C5: `from_seed_for_stream` fails exactly when `total_streams = 0`
(InvalidStreamCount, checked first) or `stream_index ≥ total_streams`
(InvalidStreamIndex); under valid arguments it returns a generator, and the
sampling operations are total functions whose outputs wrap below their bit
width instead of erroring. -/
theorem stream_failure_semantics (seed stream_index total_streams : Nat) :
    ((∃ e, from_seed_for_stream seed stream_index total_streams = .error e) ↔
      (total_streams = 0 ∨ total_streams ≤ stream_index))
    ∧ (total_streams = 0 →
        from_seed_for_stream seed stream_index total_streams =
          .error .invalidStreamCount)
    ∧ (0 < total_streams → total_streams ≤ stream_index →
        from_seed_for_stream seed stream_index total_streams =
          .error .invalidStreamIndex)
    ∧ (0 < total_streams → stream_index < total_streams →
        from_seed_for_stream seed stream_index total_streams =
          .ok (stepN 16 (streamPreState seed stream_index total_streams)))
    ∧ (∀ s : Biski64Rng, (next_u64 s).2 < 2 ^ 64 ∧ (next_u32 s).2 < 2 ^ 32) := by
  have hout : ∀ s : Biski64Rng, (next_u64 s).2 < U64 := by
    intro s
    show (s.mix + s.loop_mix) % U64 < U64
    exact Nat.mod_lt _ U64_pos
  unfold from_seed_for_stream
  refine ⟨?_, ?_, ?_, ?_, ?_⟩
  · constructor
    · rintro ⟨e, he⟩
      by_cases h1 : total_streams < 1
      · left; omega
      · by_cases h2 : total_streams ≤ stream_index
        · right; exact h2
        · rw [if_neg h1, if_neg h2] at he
          exact absurd he (by simp)
    · intro h
      by_cases h1 : total_streams < 1
      · exact ⟨.invalidStreamCount, by rw [if_pos h1]⟩
      · have h2 : total_streams ≤ stream_index := by omega
        exact ⟨.invalidStreamIndex, by rw [if_neg h1, if_pos h2]⟩
  · intro h
    rw [if_pos (by omega)]
  · intro h1 h2
    rw [if_neg (by omega), if_pos h2]
  · intro h1 h2
    rw [if_neg (by omega), if_neg (by omega)]
  · intro s
    exact ⟨hout s, shiftRight32_lt (hout s)⟩

/-- Witness for C5: at `total_streams = 0` the construction reports
InvalidStreamCount. -/
theorem stream_failure_semantics_witness :
    from_seed_for_stream 7 0 0 = .error .invalidStreamCount :=
  (stream_failure_semantics 7 0 0).2.1 rfl

theorem streamPreState_zero_index (seed t : Nat) (ht : 1 ≤ t) :
    streamPreState seed 0 t =
      ⟨(seedTriple seed).1.1, (seedTriple seed).1.2.1,
        (seedTriple seed).1.2.2⟩ := by
  have hlt := (seedTriple_lt seed).1
  unfold streamPreState
  by_cases h1 : 1 < t
  · simp [h1, Nat.mod_eq_of_lt hlt]
  · simp [h1]

/-- C10: stream 0 is independent of the stream count: for every seed and all
stream counts at least 1, `from_seed_for_stream` at index 0 produces the
same generator, the offset at index 0 being zero in every branch. -/
theorem stream_zero_independent_of_count (seed n m : Nat)
    (hn : 1 ≤ n) (hm : 1 ≤ m) :
    from_seed_for_stream seed 0 n = from_seed_for_stream seed 0 m := by
  unfold from_seed_for_stream
  rw [if_neg (by omega), if_neg (by omega), if_neg (by omega),
    if_neg (by omega), streamPreState_zero_index seed n hn,
    streamPreState_zero_index seed m hm]

/-- Witness for C10: stream 0 of 1 total stream and stream 0 of 5 total
streams agree. -/
theorem stream_zero_independent_of_count_witness :
    from_seed_for_stream 42 0 1 = from_seed_for_stream 42 0 5 :=
  stream_zero_independent_of_count 42 1 5 (by decide) (by decide)

/-- C9: only the first 8 seed bytes matter: the integer fed to the seed
expander is the little-endian value of the first 8 bytes, and two 32-byte
seeds agreeing on those bytes give identical generators, hence identical
outputs for any number of `next_u64`, `next_u32` or `fill_bytes` calls. -/
theorem from_seed_first8_noninterference (a b : List Nat)
    (ha : a.length = 32) (hb : b.length = 32)
    (ha8 : ∀ x ∈ a, x < 256) (hb8 : ∀ x ∈ b, x < 256)
    (h8 : a.take 8 = b.take 8) :
    from_seed a = fromSeedCore (u64FromLeBytes (a.take 8))
    ∧ from_seed a = from_seed b
    ∧ (∀ n, outSeq (from_seed a) n = outSeq (from_seed b) n
        ∧ fill_bytes (from_seed a) n = fill_bytes (from_seed b) n)
    ∧ next_u32 (from_seed a) = next_u32 (from_seed b) := by
  have hab : from_seed a = from_seed b := by
    unfold from_seed
    rw [h8]
  exact ⟨rfl, hab, fun n => ⟨by rw [hab], by rw [hab]⟩, by rw [hab]⟩

/-- Witness for C9: an all-zero 32-byte seed and one differing only from
byte 8 on construct the same generator. -/
theorem from_seed_first8_noninterference_witness :
    from_seed (List.replicate 32 0) =
      from_seed (List.replicate 8 0 ++ List.replicate 24 7) :=
  (from_seed_first8_noninterference (List.replicate 32 0)
    (List.replicate 8 0 ++ List.replicate 24 7) (by decide) (by decide)
    (by decide) (by decide) (by decide)).2.1

theorem U64_dvd_U128 : U64 ∣ U128 := by
  show (2 : Nat) ^ 64 ∣ 2 ^ 128
  exact pow_dvd_pow 2 (by norm_num)

theorem mod128_collapse (x : Nat) :
    x % U128 * FAST_INC % U128 % U64 = x * FAST_INC % U64 := by
  rw [Nat.mod_mod_of_dvd _ U64_dvd_U128]
  conv_lhs => rw [Nat.mul_mod]
  rw [Nat.mod_mod_of_dvd _ U64_dvd_U128, ← Nat.mul_mod]

/-- C4: under valid arguments, the state entering the warm-up has fast_loop
equal to the drawn s0 plus the offset
stream_index * floor((2^64 - 1) / total_streams) * 0x9999999999999999
reduced modulo 2^64 (the 128-bit intermediates collapse to the plain
product), while mix and loop_mix are the drawn s1 and s2 unchanged; and
`from_seed_for_stream` returns the 16-step warm-up of that state. -/
theorem stream_offset_computation (seed stream_index total_streams : Nat)
    (ht : 1 ≤ total_streams) (hi : stream_index < total_streams) :
    streamPreState seed stream_index total_streams =
      ⟨((seedTriple seed).1.1 +
          stream_index * ((2 ^ 64 - 1) / total_streams) *
            0x9999999999999999 % 2 ^ 64) % 2 ^ 64,
        (seedTriple seed).1.2.1, (seedTriple seed).1.2.2⟩
    ∧ from_seed_for_stream seed stream_index total_streams =
        .ok (stepN 16 (streamPreState seed stream_index total_streams)) := by
  constructor
  · have hlt := (seedTriple_lt seed).1
    have key := mod128_collapse (stream_index * ((U64 - 1) / total_streams))
    unfold streamPreState
    by_cases h1 : 1 < total_streams
    · simp only [if_pos h1]
      rw [key]
      rfl
    · have hts : total_streams = 1 := by omega
      have hsi : stream_index = 0 := by omega
      subst hts
      subst hsi
      have hlt2 : (seedTriple seed).1.1 < 2 ^ 64 := hlt
      simp
      omega
  · unfold from_seed_for_stream
    rw [if_neg (by omega), if_neg (by omega)]

/-- Witness for C4 at seed 3, stream 1 of 2. -/
theorem stream_offset_computation_witness :
    from_seed_for_stream 3 1 2 = .ok (stepN 16 (streamPreState 3 1 2)) :=
  (stream_offset_computation 3 1 2 (by decide) (by decide)).2

theorem next_u64_fast_loop (s : Biski64Rng) :
    (next_u64 s).1.fast_loop = (s.fast_loop + FAST_INC) % U64 := rfl

theorem stepN_zero (s : Biski64Rng) : stepN 0 s = s := rfl

theorem stepN_succ (n : Nat) (s : Biski64Rng) :
    stepN (n + 1) s = (next_u64 (stepN n s)).1 := rfl

theorem stepN_fast_loop (k : Nat) (s : Biski64Rng) (hs : s.fast_loop < U64) :
    (stepN k s).fast_loop = (s.fast_loop + k * FAST_INC) % U64 := by
  induction k with
  | zero =>
    show s.fast_loop = (s.fast_loop + 0 * FAST_INC) % U64
    rw [Nat.zero_mul, Nat.add_zero, Nat.mod_eq_of_lt hs]
  | succ k ih =>
    rw [stepN_succ, next_u64_fast_loop, ih, Nat.mod_add_mod]
    congr 1
    ring

/-- C1: from any u64 state, k applications of the next_u64 transition with
1 ≤ k < 2^64 move fast_loop to (fast_loop + k * 0x9999999999999999) mod
2^64, a value different from the starting fast_loop — so the state cannot
return to itself in fewer than 2^64 steps — and within 2^64 steps fast_loop
visits every 64-bit value. -/
theorem min_period_fast_loop (s : Biski64Rng) (hs : s.fast_loop < 2 ^ 64)
    (k : Nat) (hk1 : 1 ≤ k) (hk2 : k < 2 ^ 64) :
    (stepN k s).fast_loop = (s.fast_loop + k * 0x9999999999999999) % 2 ^ 64
    ∧ (stepN k s).fast_loop ≠ s.fast_loop
    ∧ stepN k s ≠ s
    ∧ (∀ v, v < 2 ^ 64 → ∃ j, j < 2 ^ 64 ∧ (stepN j s).fast_loop = v) := by
  have hs64 : s.fast_loop < U64 := hs
  have heq := stepN_fast_loop k s hs64
  have hne : (stepN k s).fast_loop ≠ s.fast_loop := by
    rw [heq]
    intro hbad
    have h1 : (s.fast_loop + k * FAST_INC) % U64 = (s.fast_loop + 0) % U64 := by
      rw [Nat.add_zero, Nat.mod_eq_of_lt hs64]
      exact hbad
    have h3 : k * FAST_INC ≡ 0 [MOD U64] := Nat.ModEq.add_left_cancel' _ h1
    have h4 : U64 ∣ k * FAST_INC := Nat.modEq_zero_iff_dvd.1 h3
    have hcop : Nat.Coprime U64 FAST_INC := by decide
    have h5 : U64 ∣ k := hcop.dvd_of_dvd_mul_right h4
    have h6 := Nat.le_of_dvd (by omega) h5
    have hU : U64 = 2 ^ 64 := rfl
    omega
  refine ⟨heq, hne, fun hss => hne (congrArg Biski64Rng.fast_loop hss), ?_⟩
  intro v hv
  refine ⟨(U64 + v - s.fast_loop) * 0xaaaaaaaaaaaaaaa9 % U64, Nat.mod_lt _ U64_pos, ?_⟩
  rw [stepN_fast_loop _ s hs64]
  have hinv : 0xaaaaaaaaaaaaaaa9 * FAST_INC % U64 = 1 % U64 := by decide
  have hmain : (U64 + v - s.fast_loop) * 0xaaaaaaaaaaaaaaa9 % U64 * FAST_INC ≡
      U64 + v - s.fast_loop [MOD U64] := by
    calc (U64 + v - s.fast_loop) * 0xaaaaaaaaaaaaaaa9 % U64 * FAST_INC
        ≡ (U64 + v - s.fast_loop) * 0xaaaaaaaaaaaaaaa9 * FAST_INC [MOD U64] :=
          Nat.ModEq.mul_right _ (Nat.mod_modEq _ _)
      _ = (U64 + v - s.fast_loop) * (0xaaaaaaaaaaaaaaa9 * FAST_INC) := by ring
      _ ≡ (U64 + v - s.fast_loop) * 1 [MOD U64] := Nat.ModEq.mul_left _ hinv
      _ = U64 + v - s.fast_loop := by ring
  have hfull : s.fast_loop +
      (U64 + v - s.fast_loop) * 0xaaaaaaaaaaaaaaa9 % U64 * FAST_INC ≡
        v [MOD U64] := by
    calc s.fast_loop + (U64 + v - s.fast_loop) * 0xaaaaaaaaaaaaaaa9 % U64 * FAST_INC
        ≡ s.fast_loop + (U64 + v - s.fast_loop) [MOD U64] :=
          Nat.ModEq.add_left _ hmain
      _ = U64 + v := Nat.add_sub_cancel'
          (Nat.le_of_lt (Nat.lt_of_lt_of_le hs64 (Nat.le_add_right U64 v)))
      _ ≡ v [MOD U64] := (Nat.add_mod_left U64 v :)
  show _ % U64 = v
  rw [show ((s.fast_loop +
      (U64 + v - s.fast_loop) * 0xaaaaaaaaaaaaaaa9 % U64 * FAST_INC) % U64 :
        Nat) = v % U64 from hfull]
  exact Nat.mod_eq_of_lt hv

/-- Witness for C1 at the zero state and k = 1. -/
theorem min_period_fast_loop_witness :
    stepN 1 ⟨0, 0, 0⟩ ≠ (⟨0, 0, 0⟩ : Biski64Rng) :=
  (min_period_fast_loop ⟨0, 0, 0⟩ (by decide) 1 (by decide) (by decide)).2.2.1

theorem le8_length (x : Nat) : (le8 x).length = 8 := rfl

theorem outSeq_zero (s : Biski64Rng) : outSeq s 0 = [] := rfl

theorem outSeq_succ (s : Biski64Rng) (n : Nat) :
    outSeq s (n + 1) = (next_u64 s).2 :: outSeq (next_u64 s).1 n := rfl

theorem stepN_succ_inner (n : Nat) (s : Biski64Rng) :
    stepN (n + 1) s = stepN n (next_u64 s).1 := by
  induction n generalizing s with
  | zero =>
    calc stepN 1 s = (next_u64 (stepN 0 s)).1 := stepN_succ 0 s
      _ = (next_u64 s).1 := rfl
      _ = stepN 0 (next_u64 s).1 := rfl
  | succ n ih =>
    calc stepN (n + 1 + 1) s = (next_u64 (stepN (n + 1) s)).1 := stepN_succ _ s
      _ = (next_u64 (stepN n (next_u64 s).1)).1 := by rw [ih]
      _ = stepN (n + 1) (next_u64 s).1 := (stepN_succ n (next_u64 s).1).symm

theorem fillBytesAux_succ (c : Nat) (s : Biski64Rng) (n : Nat) :
    fillBytesAux (c + 1) s n =
      if n ≤ 8 then ((le8 (next_u64 s).2).take n, (next_u64 s).1)
      else (le8 (next_u64 s).2 ++ (fillBytesAux c (next_u64 s).1 (n - 8)).1,
            (fillBytesAux c (next_u64 s).1 (n - 8)).2) := rfl

theorem fillBytesAux_spec (c : Nat) :
    ∀ (s : Biski64Rng) (n : Nat), (n + 7) / 8 = c →
      (fillBytesAux c s n).1 = (((outSeq s c).map le8).flatten).take n
      ∧ (fillBytesAux c s n).2 = stepN c s := by
  induction c with
  | zero =>
    intro s n hc
    have hn : n = 0 := by omega
    subst hn
    exact ⟨rfl, rfl⟩
  | succ c ih =>
    intro s n hc
    rw [fillBytesAux_succ]
    by_cases h8 : n ≤ 8
    · have hc0 : c = 0 := by omega
      subst hc0
      rw [if_pos h8]
      constructor
      · show (le8 (next_u64 s).2).take n =
          (((outSeq s (0 + 1)).map le8).flatten).take n
        rw [outSeq_succ, outSeq_zero]
        simp
      · show (next_u64 s).1 = stepN (0 + 1) s
        rw [stepN_succ]
        rfl
    · rw [if_neg h8]
      have hrec : (n - 8 + 7) / 8 = c := by omega
      obtain ⟨ih1, ih2⟩ := ih (next_u64 s).1 (n - 8) hrec
      constructor
      · show le8 (next_u64 s).2 ++ (fillBytesAux c (next_u64 s).1 (n - 8)).1 =
          (((outSeq s (c + 1)).map le8).flatten).take n
        rw [ih1, outSeq_succ, List.map_cons, List.flatten_cons,
          List.take_append_eq_append_take, le8_length,
          List.take_of_length_le
            (show (le8 (next_u64 s).2).length ≤ n by rw [le8_length]; omega)]
      · show (fillBytesAux c (next_u64 s).1 (n - 8)).2 = stepN (c + 1) s
        rw [ih2, stepN_succ_inner]

/-- C3: for every generator state and every buffer length n (any residue of
n modulo 8), `fill_bytes` writes exactly the first n bytes of the
concatenated little-endian 8-byte encodings of the ceil(n/8) successive
`next_u64` outputs from that state, and leaves the generator advanced by
exactly those ceil(n/8) steps. -/
theorem fill_bytes_matches_next_u64_concat (s : Biski64Rng) (n : Nat) :
    (fill_bytes s n).1 = (((outSeq s ((n + 7) / 8)).map le8).flatten).take n
    ∧ (fill_bytes s n).2 = stepN ((n + 7) / 8) s :=
  fillBytesAux_spec ((n + 7) / 8) s n rfl

end Biski64
